import Mathlib

/-!
Formal model of the Pyjama Vest cipher (`pjvc.py`): the binary key format,
the jump schedule, the ten-pass byte transform and its inverse, and the
chunked file codec.  Byte buffers are modelled as `List Nat` whose entries
are below 256; Python exceptions are modelled with `Except PyError`.
-/

namespace PJVC

/-- Python exceptions raised in `pjvc.py`, one constructor per raise site kind. -/
inductive PyError where
  | keyTooShort
  | invalidHeader
  | invalidFinalizer
  | keyLengthMismatch
  | keyLenTooSmall
  | keyLenTooBig
  | jumpFqRange
  | jumpFqPositive
  | overflowError
  | zeroDivisionError
  | indexError
deriving DecidableEq, Repr

/-- Decoded key record returned by `decode_key` (the Python dict with keys
`length`, `jump_frequency`, `jump_length`, `block`). -/
structure DecodedKey where
  length : Nat
  jump_frequency : Nat
  jump_length : Nat
  block : List Nat
deriving DecidableEq, Repr

/-- Big-endian `int.from_bytes(bs, byteorder="big")`. -/
def int_from_bytes_be (bs : List Nat) : Nat :=
  bs.foldl (fun a b => a * 256 + b) 0

/-- Model of `decode_key`: validates the minimum size, the header byte
`key[0] == 0xFF`, the finalizer byte `key[-1] == 0`, and the declared-length
consistency `len(key) == 8 + key_len`, then extracts the fields.
`key[7:-1]` is `(key.drop 7).dropLast`. -/
def decode_key (key : List Nat) : Except PyError DecodedKey :=
  if key.length < 8 then .error .keyTooShort
  else if key.headD 0 ≠ 0xFF then .error .invalidHeader
  else if key.getLastD 1 ≠ 0 then .error .invalidFinalizer
  else
    let key_len := int_from_bytes_be ((key.drop 1).take 2)
    if key.length ≠ 8 + key_len then .error .keyLengthMismatch
    else .ok {
      length := key_len
      jump_frequency := key.getD 3 0
      jump_length := int_from_bytes_be ((key.drop 4).take 3)
      block := (key.drop 7).dropLast }

/-- Big-endian fixed-width encoding of a value that fits (`n.to_bytes(len, "big")`
on an in-range value); first argument is the byte count. -/
def natToBytesBE : Nat → Nat → List Nat
  | 0, _ => []
  | l + 1, n => natToBytesBE l (n / 256) ++ [n % 256]

/-- Model of Python `x.to_bytes(len, "big")`, which raises `OverflowError`
when the value is negative or does not fit in `len` bytes. -/
def int_to_bytes (x : Int) (len : Nat) : Except PyError (List Nat) :=
  if x < 0 then .error .overflowError
  else if (256 : Int) ^ len ≤ x then .error .overflowError
  else .ok (natToBytesBE len x.toNat)

/-- Slice assignment `l[i : i + repl.length] = repl`. -/
def setSlice (l : List Nat) (i : Nat) (repl : List Nat) : List Nat :=
  l.take i ++ repl ++ l.drop (i + repl.length)

/-- Model of `generate_key`; `rnd` stands for the `urandom(key_len + 4)` bytes,
so the assembled buffer is header, two size bytes, `rnd`, finalizer.  The
argument checks mirror the source, including the duplicated jump-frequency
check standing where a jump-length check was apparently intended. -/
def generate_key (key_len : Nat) (override_jumpfq override_jumplen : Int)
    (rnd : List Nat) : Except PyError (List Nat) :=
  if key_len < 4 then .error .keyLenTooSmall
  else if 65535 < key_len then .error .keyLenTooBig
  else if override_jumpfq ≠ -1 ∧ (override_jumpfq < 1 ∨ 255 < override_jumpfq) then
    .error .jumpFqRange
  else if override_jumpfq ≠ -1 ∧ override_jumpfq < 1 then .error .jumpFqPositive
  else
    let key := [0xFF] ++ natToBytesBE 2 key_len ++ rnd ++ [0x00]
    let key := if override_jumpfq ≠ -1 then key.set 3 override_jumpfq.toNat else key
    if override_jumplen ≠ -1 then
      match int_to_bytes override_jumplen 3 with
      | .error e => .error e
      | .ok jb => .ok (setSlice key 4 jb)
    else .ok key

/-- Model of `jump_interval`: `int(max((frequency / 255) * (length // 16), 2))`.
Exact rational arithmetic stands in for Python's binary floats; the value is
at least 2, so `int` truncation coincides with the floor, and
`jump_interval_eq_floor` below shows this closed Nat form equals the floor of
the rational expression written exactly as in the source. -/
def jump_interval (length frequency : Nat) : Nat :=
  max (frequency * (length / 16) / 255) 2

/-- In-loop cipher cursor state: `current_key_value`, `till_next_jump` and
`polarity` of `encrypt` / `decrypt`.  `till` is an `Int` because Python
decrements it without a lower bound. -/
structure CipherState where
  pos : Nat
  till : Int
  pol : Bool
deriving DecidableEq, Repr

/-- Byte update `kv += k; if kv > 255: kv -= 256` of the source. -/
def byteAdd (d k : Nat) : Nat :=
  if d + k > 255 then d + k - 256 else d + k

/-- Byte update `kv -= k; if kv < 0: kv += 256` of the source, written on
naturals (the branches coincide with the Python integer arithmetic on
byte-range inputs, which is the only way the source reaches them). -/
def byteSub (d k : Nat) : Nat :=
  if d < k then d + 256 - k else d - k

/-- Per-byte operation: encryption (`dir = true`) subtracts on polarity true
and adds on polarity false; decryption (`dir = false`) inverts the test. -/
def cipherByte (dir pol : Bool) (d k : Nat) : Nat :=
  if dir then (if pol then byteSub d k else byteAdd d k)
  else (if pol then byteAdd d k else byteSub d k)

/-- State update performed after each byte: decrement `till_next_jump`,
advance the cursor, on reaching zero flip the polarity, add the jump length
and reset the countdown, finally reduce the cursor modulo the key length
when it is out of range. -/
def stepState (jc : Int) (jl kl : Nat) (s : CipherState) : CipherState :=
  let till := s.till - 1
  let pol := if till = 0 then !s.pol else s.pol
  let pos := if till = 0 then s.pos + 1 + jl else s.pos + 1
  let till2 := if till = 0 then jc else till
  let pos2 := if kl ≤ pos then pos % kl else pos
  ⟨pos2, till2, pol⟩

/-- One inner pass (`for i in range(data_len)`) over the data, reading
`key["block"][current_key_value]` with a bounds check: Python raises
`IndexError` on an out-of-range index, modelled as `none`. -/
def runPassO (dir : Bool) (jc : Int) (jl kl : Nat) (block : List Nat) :
    CipherState → List Nat → Option (CipherState × List Nat)
  | s, [] => some (s, [])
  | s, d :: rest =>
    match block[s.pos]? with
    | none => none
    | some kb =>
      match runPassO dir jc jl kl block (stepState jc jl kl s) rest with
      | none => none
      | some (s2, rest2) => some (s2, cipherByte dir s.pol d kb :: rest2)

/-- The ten outer passes (`for _ in range(10)`), sharing one cursor state. -/
def runPasses (dir : Bool) (jc : Int) (jl kl : Nat) (block : List Nat) :
    Nat → CipherState → List Nat → Option (CipherState × List Nat)
  | 0, s, data => some (s, data)
  | n + 1, s, data =>
    match runPassO dir jc jl kl block s data with
    | none => none
    | some (s2, d2) => runPasses dir jc jl kl block n s2 d2

/-- Shared body of `encrypt` and `decrypt` (the two source functions are
identical except for the polarity test, selected here by `dir`): decode the
key, derive the jump schedule — where `key["jump_length"] // key["length"]`
raises `ZeroDivisionError` on a decoded length of zero — and run the ten
passes from the initial state. -/
def transform (dir : Bool) (data key : List Nat) : Except PyError (List Nat) :=
  match decode_key key with
  | .error e => .error e
  | .ok k =>
    let jump_chars := jump_interval data.length k.jump_frequency
    if k.length = 0 then .error .zeroDivisionError
    else
      let jump_len := k.jump_length / k.length + k.length
      match runPasses dir (jump_chars : Int) jump_len k.length k.block
          10 ⟨0, (jump_chars : Int), false⟩ data with
      | none => .error .indexError
      | some (_, out) => .ok out

/-- Model of `encrypt` on byte data. -/
def encrypt (data key : List Nat) : Except PyError (List Nat) :=
  transform true data key

/-- Model of `decrypt`. -/
def decrypt (data key : List Nat) : Except PyError (List Nat) :=
  transform false data key

/-- Python substring test `pat in s` on bytes (an empty pattern is contained
in everything). -/
def containsSub (pat : List Nat) : List Nat → Bool
  | [] => pat.isEmpty
  | h :: t => pat.isPrefixOf (h :: t) || containsSub pat t

/-- Kernel of `bytes.replace`: scans left to right and substitutes leftmost
non-overlapping occurrences; `skip` counts bytes of a found occurrence still
to be consumed.  Meaningful for a nonempty pattern `old`. -/
def replaceGo (old repl : List Nat) : Nat → List Nat → List Nat
  | _, [] => []
  | skip + 1, _ :: t => replaceGo old repl skip t
  | 0, h :: t =>
    if old.isPrefixOf (h :: t) then repl ++ replaceGo old repl (old.length - 1) t
    else h :: replaceGo old repl 0 t

/-- Model of Python `s.replace(old, repl)` on bytes; an empty `old` inserts
`repl` at every boundary, as CPython does. -/
def pyReplace (s old repl : List Nat) : List Nat :=
  if old.isEmpty then repl ++ (s.map (fun b => b :: repl)).flatten
  else replaceGo old repl 0 s

/-- Splits a byte list the way repeated `infile.read(n)` does: successive
chunks of `n` bytes, the last possibly shorter, none empty.  `cap` is the
room left in the current chunk and `acc` holds its bytes in reverse. -/
def chunksGo (n : Nat) : List Nat → List Nat → Nat → List (List Nat)
  | [], acc, _ => if acc.isEmpty then [] else [acc.reverse]
  | h :: t, acc, 0 => acc.reverse :: chunksGo n t [h] (n - 1)
  | h :: t, acc, cap + 1 => chunksGo n t (h :: acc) cap

/-- The 1 KiB chunking used by `encrypt_file`. -/
def chunks1024 (l : List Nat) : List (List Nat) :=
  chunksGo 1024 l [] 1024

/-- Iterating a binary file yields lines that keep their trailing newline;
a final unterminated piece is yielded as-is.  `acc` holds the current line
in reverse. -/
def pyLinesGo : List Nat → List Nat → List (List Nat)
  | [], acc => if acc.isEmpty then [] else [acc.reverse]
  | h :: t, acc =>
    if h = 10 then (acc.reverse ++ [10]) :: pyLinesGo t []
    else pyLinesGo t (h :: acc)

/-- Line decomposition of a byte stream, as Python file iteration yields it. -/
def pyLines (s : List Nat) : List (List Nat) :=
  pyLinesGo s []

/-- Acceptance test of the separator-selection loop in `encrypt_file`: the
candidate must not contain the newline byte and must occur in no 1 KiB chunk
of the raw input. -/
def sepAccepted (sep input : List Nat) : Bool :=
  !containsSub [10] sep && (chunks1024 input).all (fun c => !containsSub sep c)

/-- Model of `encrypt_file` with the randomly drawn separator passed in:
writes the separator line, then, for each 1 KiB chunk, the encrypted chunk
with every newline byte replaced by the separator, terminated by a newline. -/
def encrypt_file (input sep key : List Nat) : Except PyError (List Nat) :=
  match (chunks1024 input).mapM (fun chunk =>
      match encrypt chunk key with
      | .error e => Except.error e
      | .ok enc => Except.ok (pyReplace enc [10] sep ++ [10])) with
  | .error e => .error e
  | .ok outs => .ok (sep ++ [10] ++ outs.flatten)

/-- Model of `decrypt_file`: the first line minus its trailing byte is the
separator; every further line is stripped of its trailing byte, has each
separator occurrence replaced by a newline, and is decrypted. -/
def decrypt_file (input key : List Nat) : Except PyError (List Nat) :=
  let lines := pyLines input
  let sep := (lines.headD []).dropLast
  match lines.tail.mapM (fun line =>
      decrypt (pyReplace line.dropLast sep [10]) key) with
  | .error e => .error e
  | .ok outs => .ok outs.flatten

/-- State after `n` byte steps; the cursor schedule of the cipher does not
depend on the data bytes, only on counts. -/
def advance (jc : Int) (jl kl : Nat) (s : CipherState) : Nat → CipherState
  | 0 => s
  | n + 1 => advance jc jl kl (stepState jc jl kl s) n

/-- Net mod-256 addend of one byte step: adding `k` or adding `256 - k`
according to the polarity test, which `cipherByte` matches on byte inputs. -/
def deltaStep (dir pol : Bool) (k : Nat) : Nat :=
  if dir = pol then 256 - k else k

/-- Addends of the next `n` byte steps starting from state `s`. -/
def deltaList (dir : Bool) (jc : Int) (jl kl : Nat) (block : List Nat) :
    CipherState → Nat → List Nat
  | _, 0 => []
  | s, n + 1 =>
    deltaStep dir s.pol (block.getD s.pos 0) ::
      deltaList dir jc jl kl block (stepState jc jl kl s) n

/-- Accumulated addends over `n` passes of length `len` starting at `s`. -/
def passesDeltas (dir : Bool) (jc : Int) (jl kl : Nat) (block : List Nat)
    (s : CipherState) (len : Nat) : Nat → List Nat
  | 0 => List.replicate len 0
  | n + 1 =>
    List.zipWith (· + ·) (deltaList dir jc jl kl block s len)
      (passesDeltas dir jc jl kl block (advance jc jl kl s len) len n)

/-- Pointwise mod-256 addition, the algebraic form of both byte updates. -/
def addMod256 (d c : Nat) : Nat := (d + c) % 256

/-- The accumulated addends of a whole transform run on data of length
`len` under decoded key `k`: jump schedule and initial state as in the
source, ten passes. -/
def cipherDeltas (dir : Bool) (k : DecodedKey) (len : Nat) : List Nat :=
  passesDeltas dir (jump_interval len k.jump_frequency)
    (k.jump_length / k.length + k.length) k.length k.block
    ⟨0, (jump_interval len k.jump_frequency : Int), false⟩ len 10

end PJVC

deriving instance DecidableEq for Except

namespace PJVC

/-- The closed Nat form of `jump_interval` equals the floor of the rational
expression written exactly as in the source. -/
theorem jump_interval_eq_floor (length frequency : Nat) :
    (jump_interval length frequency : ℤ) =
      ⌊max ((frequency : ℚ) / 255 * ((length / 16 : Nat) : ℚ)) 2⌋ := by
  have hmax : ⌊max ((frequency : ℚ) / 255 * ((length / 16 : Nat) : ℚ)) (2 : ℚ)⌋ =
      max ⌊((frequency : ℚ) / 255 * ((length / 16 : Nat) : ℚ))⌋ ⌊(2 : ℚ)⌋ :=
    Monotone.map_max Int.floor_mono
  have harg : ((frequency : ℚ) / 255 * ((length / 16 : Nat) : ℚ))
      = (((frequency * (length / 16) : ℕ) : ℤ) : ℚ) / (((255 : ℕ) : ℤ) : ℚ) := by
    rw [Int.cast_natCast, Int.cast_natCast, Nat.cast_mul]
    push_cast
    ring
  have hfloor : ⌊(((frequency * (length / 16) : ℕ) : ℤ) : ℚ) / (((255 : ℕ) : ℤ) : ℚ)⌋
      = ((frequency * (length / 16) : ℕ) : ℤ) / ((255 : ℕ) : ℤ) := by
    rw [show (((255 : ℕ) : ℤ) : ℚ) = ((255 : ℕ) : ℚ) by norm_num]
    exact Rat.floor_intCast_div_natCast _ _
  rw [hmax, harg, hfloor]
  have h2 : ⌊(2 : ℚ)⌋ = 2 := by norm_num
  rw [h2]
  unfold jump_interval
  rw [Nat.cast_max]
  congr 1

/-- The cursor is always strictly below the key length after a step. -/
theorem stepState_pos_lt (jc : Int) (jl kl : Nat) (s : CipherState) (h : 1 ≤ kl) :
    (stepState jc jl kl s).pos < kl := by
  simp only [stepState]
  split <;> split
  · exact Nat.mod_lt _ h
  · omega
  · exact Nat.mod_lt _ h
  · omega

/-- The cursor stays strictly below the key length along the schedule. -/
theorem advance_pos_lt (jc : Int) (jl kl : Nat) (h : 1 ≤ kl) :
    ∀ (n : Nat) (s : CipherState), s.pos < kl → (advance jc jl kl s n).pos < kl
  | 0, _, hs => hs
  | n + 1, s, _ => advance_pos_lt jc jl kl h n _ (stepState_pos_lt jc jl kl s h)

/-- On byte-range inputs the conditional byte update is mod-256 addition of
the polarity-determined addend. -/
theorem cipherByte_mod (dir pol : Bool) (d k : Nat) (hd : d < 256) (hk : k < 256) :
    cipherByte dir pol d k = addMod256 d (deltaStep dir pol k) := by
  cases dir <;> cases pol <;>
    simp only [cipherByte, deltaStep, byteAdd, byteSub, addMod256, if_true, if_false,
      Bool.true_eq_false, Bool.false_eq_true, reduceIte] <;>
    split_ifs <;> omega

theorem deltaList_length (dir : Bool) (jc : Int) (jl kl : Nat) (block : List Nat) :
    ∀ (n : Nat) (s : CipherState), (deltaList dir jc jl kl block s n).length = n
  | 0, _ => rfl
  | n + 1, s => by
    simp [deltaList, deltaList_length dir jc jl kl block n]

theorem passesDeltas_length (dir : Bool) (jc : Int) (jl kl : Nat) (block : List Nat)
    (len : Nat) :
    ∀ (n : Nat) (s : CipherState), (passesDeltas dir jc jl kl block s len n).length = len
  | 0, _ => by simp [passesDeltas]
  | n + 1, s => by
    simp [passesDeltas, List.length_zipWith, deltaList_length,
      passesDeltas_length dir jc jl kl block len n]

/-- Entry of a list of bytes below 256, with the default 0 also below 256. -/
theorem getD_lt_256 (l : List Nat) (hb : ∀ x ∈ l, x < 256) (i : Nat) :
    l.getD i 0 < 256 := by
  by_cases h : i < l.length
  · rw [List.getD_eq_getElem _ _ h]
    exact hb _ (List.getElem_mem h)
  · rw [List.getD_eq_default _ _ (by omega)]
    omega

theorem getD_zipWith (f : Nat → Nat → Nat) :
    ∀ (a b : List Nat) (i : Nat), i < a.length → i < b.length →
      (List.zipWith f a b).getD i 0 = f (a.getD i 0) (b.getD i 0)
  | _ :: _, _ :: _, 0, _, _ => rfl
  | x :: a, y :: b, i + 1, ha, hb =>
    getD_zipWith f a b i (by simpa using ha) (by simpa using hb)
  | [], _, i, ha, _ => absurd ha (by simp)
  | _ :: _, [], i, _, hb => absurd hb (by simp)

theorem eq_of_getD :
    ∀ (a b : List Nat), a.length = b.length →
      (∀ i, i < a.length → a.getD i 0 = b.getD i 0) → a = b
  | [], [], _, _ => rfl
  | x :: a, y :: b, hl, h => by
    have h0 : x = y := h 0 (by simp)
    have ht : a = b :=
      eq_of_getD a b (by simpa using hl) (fun i hi => h (i + 1) (by simpa using hi))
    rw [h0, ht]
  | [], _ :: _, hl, _ => by simp at hl
  | _ :: _, [], hl, _ => by simp at hl

theorem zipWith256_lt :
    ∀ (a b : List Nat) (x : Nat), x ∈ List.zipWith addMod256 a b → x < 256
  | x :: a, y :: b, z, hz => by
    rcases List.mem_cons.mp hz with h | h
    · subst h; exact Nat.mod_lt _ (by omega)
    · exact zipWith256_lt a b z h
  | [], _, z, hz => by simp at hz
  | _ :: _, [], z, hz => by simp at hz

theorem zipWith256_replicate_zero :
    ∀ (a : List Nat), (∀ x ∈ a, x < 256) →
      List.zipWith addMod256 a (List.replicate a.length 0) = a
  | [], _ => rfl
  | x :: a, h => by
    simp only [List.length_cons, List.replicate_succ, List.zipWith_cons_cons]
    rw [zipWith256_replicate_zero a (fun y hy => h y (List.mem_cons_of_mem _ hy))]
    have hx : addMod256 x 0 = x := by
      have := h x (List.mem_cons_self x a)
      simp only [addMod256]
      omega
    rw [hx]

theorem zipWith256_assoc :
    ∀ (a b c : List Nat),
      List.zipWith addMod256 (List.zipWith addMod256 a b) c =
        List.zipWith addMod256 a (List.zipWith (· + ·) b c)
  | [], _, _ => by simp
  | _ :: _, [], _ => by simp
  | _ :: _, _ :: _, [] => by simp
  | x :: a, y :: b, z :: c => by
    simp only [List.zipWith_cons_cons, zipWith256_assoc a b c]
    congr 1
    simp only [addMod256]
    omega

theorem getD_replicate_zero : ∀ (len i : Nat), (List.replicate len 0).getD i 0 = 0
  | 0, _ => rfl
  | _ + 1, 0 => rfl
  | len + 1, i + 1 => getD_replicate_zero len i

/-- One inner pass, on byte-range data from an in-range cursor, returns the
advanced state and byte-wise mod-256 addition of the step addends. -/
theorem runPassO_eq (dir : Bool) (jc : Int) (jl kl : Nat) (block : List Nat)
    (hb : ∀ x ∈ block, x < 256) (hkl : block.length = kl) (h1 : 1 ≤ kl) :
    ∀ (data : List Nat) (s : CipherState), (∀ x ∈ data, x < 256) → s.pos < kl →
      runPassO dir jc jl kl block s data =
        some (advance jc jl kl s data.length,
          List.zipWith addMod256 data (deltaList dir jc jl kl block s data.length))
  | [], _, _, _ => rfl
  | d :: rest, s, hd, hs => by
    have hlt : s.pos < block.length := by omega
    have hget : block[s.pos]? = some (block.getD s.pos 0) := by
      rw [List.getElem?_eq_getElem hlt, List.getD_eq_getElem _ _ hlt]
    have hrec := runPassO_eq dir jc jl kl block hb hkl h1 rest (stepState jc jl kl s)
      (fun x hx => hd x (List.mem_cons_of_mem _ hx)) (stepState_pos_lt jc jl kl s h1)
    have hbyte : cipherByte dir s.pol d (block.getD s.pos 0)
        = addMod256 d (deltaStep dir s.pol (block.getD s.pos 0)) :=
      cipherByte_mod dir s.pol d (block.getD s.pos 0)
        (hd d (List.mem_cons_self d rest)) (getD_lt_256 block hb s.pos)
    simp only [runPassO, hget, hrec, deltaList, advance, List.length_cons,
      List.zipWith_cons_cons, hbyte]

/-- The full multi-pass run accumulates the per-pass addends. -/
theorem runPasses_eq (dir : Bool) (jc : Int) (jl kl : Nat) (block : List Nat)
    (hb : ∀ x ∈ block, x < 256) (hkl : block.length = kl) (h1 : 1 ≤ kl) :
    ∀ (n : Nat) (s : CipherState) (data : List Nat),
      (∀ x ∈ data, x < 256) → s.pos < kl →
      ∃ s2, runPasses dir jc jl kl block n s data =
        some (s2, List.zipWith addMod256 data
          (passesDeltas dir jc jl kl block s data.length n)) := by
  intro n
  induction n with
  | zero =>
    intro s data hd _
    exact ⟨s, by simp [runPasses, passesDeltas, zipWith256_replicate_zero data hd]⟩
  | succ n ih =>
    intro s data hd hs
    have hpass := runPassO_eq dir jc jl kl block hb hkl h1 data s hd hs
    have hd2 : ∀ x ∈ List.zipWith addMod256 data
        (deltaList dir jc jl kl block s data.length), x < 256 :=
      fun x hx => zipWith256_lt _ _ x hx
    have hlen2 : (List.zipWith addMod256 data
        (deltaList dir jc jl kl block s data.length)).length = data.length := by
      rw [List.length_zipWith, deltaList_length]
      omega
    obtain ⟨s2, h2⟩ := ih (advance jc jl kl s data.length)
      (List.zipWith addMod256 data (deltaList dir jc jl kl block s data.length))
      hd2 (advance_pos_lt jc jl kl h1 data.length s hs)
    refine ⟨s2, ?_⟩
    simp only [runPasses, hpass, h2, hlen2, passesDeltas, zipWith256_assoc]

/-- The encryption and decryption addends of one step sum to 256. -/
theorem deltaStep_pair (pol : Bool) (k : Nat) (hk : k < 256) :
    deltaStep true pol k + deltaStep false pol k = 256 := by
  cases pol <;> simp [deltaStep] <;> omega

/-- The encryption and decryption addend lists pair up to 256 pointwise,
because the cursor schedule does not depend on the direction. -/
theorem deltaList_pair (jc : Int) (jl kl : Nat) (block : List Nat)
    (hb : ∀ x ∈ block, x < 256) :
    ∀ (n : Nat) (s : CipherState) (i : Nat), i < n →
      (deltaList true jc jl kl block s n).getD i 0 +
        (deltaList false jc jl kl block s n).getD i 0 = 256
  | n + 1, s, 0, _ => deltaStep_pair s.pol _ (getD_lt_256 block hb s.pos)
  | n + 1, s, i + 1, h =>
    deltaList_pair jc jl kl block hb n (stepState jc jl kl s) i (by omega)

/-- Over `n` passes the paired addends sum to `n * 256` pointwise. -/
theorem passesDeltas_pair (jc : Int) (jl kl : Nat) (block : List Nat)
    (hb : ∀ x ∈ block, x < 256) (len : Nat) :
    ∀ (n : Nat) (s : CipherState) (i : Nat), i < len →
      (passesDeltas true jc jl kl block s len n).getD i 0 +
        (passesDeltas false jc jl kl block s len n).getD i 0 = n * 256 := by
  intro n
  induction n with
  | zero =>
    intro s i _
    simp [passesDeltas, getD_replicate_zero]
  | succ n ih =>
    intro s i hi
    have hT := getD_zipWith (· + ·) (deltaList true jc jl kl block s len)
      (passesDeltas true jc jl kl block (advance jc jl kl s len) len n) i
      (by rw [deltaList_length]; omega) (by rw [passesDeltas_length]; omega)
    have hF := getD_zipWith (· + ·) (deltaList false jc jl kl block s len)
      (passesDeltas false jc jl kl block (advance jc jl kl s len) len n) i
      (by rw [deltaList_length]; omega) (by rw [passesDeltas_length]; omega)
    have hd := deltaList_pair jc jl kl block hb len s i hi
    have hp := ih (advance jc jl kl s len) i hi
    simp only [passesDeltas, hT, hF]
    omega

/-- One inner pass succeeds from an in-range cursor for any data, and leaves
the cursor in range. -/
theorem runPassO_isSome (dir : Bool) (jc : Int) (jl kl : Nat) (block : List Nat)
    (hkl : block.length = kl) (h1 : 1 ≤ kl) :
    ∀ (data : List Nat) (s : CipherState), s.pos < kl →
      ∃ s2 out, runPassO dir jc jl kl block s data = some (s2, out) ∧ s2.pos < kl
  | [], s, hs => ⟨s, [], rfl, hs⟩
  | d :: rest, s, hs => by
    have hlt : s.pos < block.length := by omega
    have hget : block[s.pos]? = some (block.getD s.pos 0) := by
      rw [List.getElem?_eq_getElem hlt, List.getD_eq_getElem _ _ hlt]
    obtain ⟨s2, out, hrun, hs2⟩ := runPassO_isSome dir jc jl kl block hkl h1 rest
      (stepState jc jl kl s) (stepState_pos_lt jc jl kl s h1)
    exact ⟨s2, cipherByte dir s.pol d (block.getD s.pos 0) :: out,
      by simp only [runPassO, hget, hrun], hs2⟩

/-- The multi-pass run succeeds from an in-range cursor for any data. -/
theorem runPasses_isSome (dir : Bool) (jc : Int) (jl kl : Nat) (block : List Nat)
    (hkl : block.length = kl) (h1 : 1 ≤ kl) :
    ∀ (n : Nat) (s : CipherState) (data : List Nat), s.pos < kl →
      ∃ s2 out, runPasses dir jc jl kl block n s data = some (s2, out) := by
  intro n
  induction n with
  | zero => intro s data _; exact ⟨s, data, rfl⟩
  | succ n ih =>
    intro s data hs
    obtain ⟨s2, out, hrun, hs2⟩ := runPassO_isSome dir jc jl kl block hkl h1 data s hs
    obtain ⟨s3, out3, h3⟩ := ih s2 out hs2
    exact ⟨s3, out3, by simp only [runPasses, hrun, h3]⟩

/-- Facts recovered from a successful `decode_key`. -/
theorem decode_key_ok_facts (key : List Nat) (k : DecodedKey)
    (h : decode_key key = .ok k) :
    key.length = 8 + k.length ∧ k.block = (key.drop 7).dropLast ∧
      k.jump_frequency = key.getD 3 0 := by
  unfold decode_key at h
  split_ifs at h with h1 h2 h3
  dsimp only at h
  split at h
  next h4 => simp at h
  next h4 =>
    injection h with h5
    subst h5
    refine ⟨?_, ?_, ?_⟩
    · dsimp only
      omega
    · rfl
    · simp [List.getD]

/-- The decoded block has exactly the declared length. -/
theorem decode_key_block_length (key : List Nat) (k : DecodedKey)
    (h : decode_key key = .ok k) : k.block.length = k.length := by
  obtain ⟨hlen, hblock, -⟩ := decode_key_ok_facts key k h
  rw [hblock]
  simp only [List.length_dropLast, List.length_drop]
  omega

/-- Every decoded block byte is a byte of the key buffer. -/
theorem decode_key_block_mem (key : List Nat) (k : DecodedKey)
    (h : decode_key key = .ok k) : ∀ x ∈ k.block, x ∈ key := by
  obtain ⟨-, hblock, -⟩ := decode_key_ok_facts key k h
  rw [hblock]
  intro x hx
  exact List.drop_subset _ _ (List.dropLast_subset _ hx)

/-- Characterization of a transform run on a valid key of positive block
length and byte-range data: it succeeds and adds the accumulated addends
byte-wise, mod 256. -/
theorem transform_eq (dir : Bool) (data key : List Nat) (k : DecodedKey)
    (hdec : decode_key key = .ok k) (h1 : 1 ≤ k.length)
    (hkey : ∀ x ∈ key, x < 256) (hdata : ∀ x ∈ data, x < 256) :
    transform dir data key =
      .ok (List.zipWith addMod256 data
        (passesDeltas dir (jump_interval data.length k.jump_frequency)
          (k.jump_length / k.length + k.length) k.length k.block
          ⟨0, (jump_interval data.length k.jump_frequency : Int), false⟩
          data.length 10)) := by
  obtain ⟨s2, hrun⟩ := runPasses_eq dir (jump_interval data.length k.jump_frequency)
    (k.jump_length / k.length + k.length) k.length k.block
    (fun x hx => hkey x (decode_key_block_mem key k hdec x hx))
    (decode_key_block_length key k hdec) h1 10
    ⟨0, (jump_interval data.length k.jump_frequency : Int), false⟩ data hdata h1
  simp only [transform, hdec, hrun, if_neg (by omega : ¬ k.length = 0)]

/-- Restatement of `transform_eq` through `cipherDeltas`. -/
theorem transform_ok (dir : Bool) (data key : List Nat) (k : DecodedKey)
    (hdec : decode_key key = .ok k) (h1 : 1 ≤ k.length)
    (hkey : ∀ x ∈ key, x < 256) (hdata : ∀ x ∈ data, x < 256) :
    transform dir data key =
      .ok (List.zipWith addMod256 data (cipherDeltas dir k data.length)) :=
  transform_eq dir data key k hdec h1 hkey hdata

theorem cipherDeltas_length (dir : Bool) (k : DecodedKey) (len : Nat) :
    (cipherDeltas dir k len).length = len :=
  passesDeltas_length dir _ _ k.length k.block len 10 _

/-- The two directions' accumulated addends sum to `10 * 256` pointwise. -/
theorem cipherDeltas_pair (k : DecodedKey) (hbk : ∀ x ∈ k.block, x < 256)
    (len i : Nat) (hi : i < len) :
    (cipherDeltas true k len).getD i 0 + (cipherDeltas false k len).getD i 0 = 2560 := by
  have h := passesDeltas_pair (jump_interval len k.jump_frequency)
    (k.jump_length / k.length + k.length) k.length k.block hbk len 10
    ⟨0, (jump_interval len k.jump_frequency : Int), false⟩ i hi
  unfold cipherDeltas
  omega

/-- Byte-wise cancellation: adding `D1` then `D2` mod 256 restores byte-range
data when `D1` and `D2` sum to a multiple of 256 pointwise. -/
theorem zip_cancel (data D1 D2 : List Nat) (hdata : ∀ x ∈ data, x < 256)
    (hl1 : D1.length = data.length) (hl2 : D2.length = data.length)
    (hpair : ∀ i, i < data.length → D1.getD i 0 + D2.getD i 0 = 2560) :
    List.zipWith addMod256 (List.zipWith addMod256 data D1) D2 = data := by
  apply eq_of_getD
  · rw [List.length_zipWith, List.length_zipWith]
    omega
  · intro i hi
    have hi2 : i < data.length := by
      rw [List.length_zipWith, List.length_zipWith] at hi
      omega
    rw [getD_zipWith addMod256 _ D2 i (by rw [List.length_zipWith]; omega) (by omega),
        getD_zipWith addMod256 data D1 i (by omega) (by omega)]
    have hd := getD_lt_256 data hdata i
    have hp := hpair i hi2
    simp only [addMod256]
    omega

/-- C1: for every key buffer that `decode_key` accepts with decoded block
length at least 1, and every byte sequence `data` — including the empty one
and lengths that are no multiple of the key length or of 16 —
`decrypt (encrypt data key) key` succeeds and returns exactly `data`. -/
theorem c1_round_trip (key : List Nat) (k : DecodedKey) (data : List Nat)
    (hdec : decode_key key = .ok k) (h1 : 1 ≤ k.length)
    (hkey : ∀ x ∈ key, x < 256) (hdata : ∀ x ∈ data, x < 256) :
    ∃ e, encrypt data key = .ok e ∧ decrypt e key = .ok data := by
  have hbk : ∀ x ∈ k.block, x < 256 :=
    fun x hx => hkey x (decode_key_block_mem key k hdec x hx)
  have henc := transform_ok true data key k hdec h1 hkey hdata
  have hebytes : ∀ x ∈ List.zipWith addMod256 data (cipherDeltas true k data.length),
      x < 256 := fun x hx => zipWith256_lt _ _ x hx
  have helen : (List.zipWith addMod256 data (cipherDeltas true k data.length)).length
      = data.length := by
    rw [List.length_zipWith, cipherDeltas_length]
    omega
  have hdecr := transform_ok false
    (List.zipWith addMod256 data (cipherDeltas true k data.length)) key k hdec h1 hkey
    hebytes
  rw [helen] at hdecr
  refine ⟨_, henc, ?_⟩
  show transform false _ key = _
  rw [hdecr]
  congr 1
  exact zip_cancel data _ _ hdata (cipherDeltas_length true k data.length)
    (cipherDeltas_length false k data.length)
    (fun j hj => cipherDeltas_pair k hbk data.length j hj)

/-- Witness for C1 at a concrete key and data. -/
theorem c1_round_trip_witness :
    ∃ e, encrypt [1, 2, 3, 4, 5, 250] [255, 0, 4, 7, 0, 0, 3, 20, 30, 40, 50, 0] = .ok e ∧
      decrypt e [255, 0, 4, 7, 0, 0, 3, 20, 30, 40, 50, 0] = .ok [1, 2, 3, 4, 5, 250] :=
  c1_round_trip [255, 0, 4, 7, 0, 0, 3, 20, 30, 40, 50, 0]
    { length := 4, jump_frequency := 7, jump_length := 3, block := [20, 30, 40, 50] }
    [1, 2, 3, 4, 5, 250] (by decide) (by decide) (by decide) (by decide)

/-- C3: on every key accepted by `decode_key` with block length at least 1
and any data, every key-block read of both directions is in bounds: the
bounds-checked embedding never reaches the out-of-range read, so both
`encrypt` and `decrypt` return a result. -/
theorem c3_cursor_in_bounds (key : List Nat) (k : DecodedKey) (data : List Nat)
    (hdec : decode_key key = .ok k) (h1 : 1 ≤ k.length) :
    (∃ out, encrypt data key = .ok out) ∧ ∃ out, decrypt data key = .ok out := by
  have hall : ∀ dir : Bool, ∃ out, transform dir data key = .ok out := by
    intro dir
    obtain ⟨s2, out, hrun⟩ := runPasses_isSome dir
      (jump_interval data.length k.jump_frequency)
      (k.jump_length / k.length + k.length) k.length k.block
      (decode_key_block_length key k hdec) h1 10
      ⟨0, (jump_interval data.length k.jump_frequency : Int), false⟩ data h1
    exact ⟨out, by simp only [transform, hdec, hrun, if_neg (by omega : ¬ k.length = 0)]⟩
  exact ⟨hall true, hall false⟩

/-- Witness for C3 at a concrete key and data. -/
theorem c3_cursor_in_bounds_witness :
    (∃ out, encrypt [9, 8, 7] [255, 0, 4, 7, 0, 0, 3, 20, 30, 40, 50, 0] = .ok out) ∧
      ∃ out, decrypt [9, 8, 7] [255, 0, 4, 7, 0, 0, 3, 20, 30, 40, 50, 0] = .ok out :=
  c3_cursor_in_bounds [255, 0, 4, 7, 0, 0, 3, 20, 30, 40, 50, 0]
    { length := 4, jump_frequency := 7, jump_length := 3, block := [20, 30, 40, 50] }
    [9, 8, 7] (by decide) (by decide)

/-- C8: the transforms are byte-local — on equal-length byte inputs agreeing
at index `i`, both directions produce outputs agreeing at index `i`, because
the cursor, polarity and jump schedule depend only on the length and key. -/
theorem c8_byte_locality (key : List Nat) (k : DecodedKey) (a b : List Nat) (i : Nat)
    (hdec : decode_key key = .ok k) (h1 : 1 ≤ k.length)
    (hkey : ∀ x ∈ key, x < 256) (ha : ∀ x ∈ a, x < 256) (hb : ∀ x ∈ b, x < 256)
    (hlen : a.length = b.length) (hi : i < a.length)
    (heq : a.getD i 0 = b.getD i 0) :
    (∃ ea eb, encrypt a key = .ok ea ∧ encrypt b key = .ok eb ∧
      ea.getD i 0 = eb.getD i 0) ∧
    ∃ da db, decrypt a key = .ok da ∧ decrypt b key = .ok db ∧
      da.getD i 0 = db.getD i 0 := by
  have hcomp : ∀ dir : Bool, ∃ oa ob, transform dir a key = .ok oa ∧
      transform dir b key = .ok ob ∧ oa.getD i 0 = ob.getD i 0 := by
    intro dir
    have hea := transform_ok dir a key k hdec h1 hkey ha
    have heb := transform_ok dir b key k hdec h1 hkey hb
    rw [← hlen] at heb
    refine ⟨_, _, hea, heb, ?_⟩
    rw [getD_zipWith addMod256 a _ i (by omega) (by rw [cipherDeltas_length]; omega),
        getD_zipWith addMod256 b _ i (by omega) (by rw [cipherDeltas_length]; omega),
        heq]
  exact ⟨hcomp true, hcomp false⟩

/-- Witness for C8 at a concrete key, two inputs agreeing at index 0. -/
theorem c8_byte_locality_witness :
    (∃ ea eb, encrypt [1, 2, 3] [255, 0, 4, 7, 0, 0, 3, 20, 30, 40, 50, 0] = .ok ea ∧
      encrypt [1, 9, 9] [255, 0, 4, 7, 0, 0, 3, 20, 30, 40, 50, 0] = .ok eb ∧
      ea.getD 0 0 = eb.getD 0 0) ∧
    ∃ da db, decrypt [1, 2, 3] [255, 0, 4, 7, 0, 0, 3, 20, 30, 40, 50, 0] = .ok da ∧
      decrypt [1, 9, 9] [255, 0, 4, 7, 0, 0, 3, 20, 30, 40, 50, 0] = .ok db ∧
      da.getD 0 0 = db.getD 0 0 :=
  c8_byte_locality [255, 0, 4, 7, 0, 0, 3, 20, 30, 40, 50, 0]
    { length := 4, jump_frequency := 7, jump_length := 3, block := [20, 30, 40, 50] }
    [1, 2, 3] [1, 9, 9] 0 (by decide) (by decide) (by decide) (by decide) (by decide)
    (by decide) (by decide) (by decide)

/-- C7: `jump_interval` always returns at least 2; it returns 2 for every
length 0..15 at frequency 0, and 10 at length 160 with frequency 255. -/
theorem c7_jump_interval_values :
    (∀ l f : Nat, 2 ≤ jump_interval l f) ∧
      (∀ l : Nat, l ≤ 15 → jump_interval l 0 = 2) ∧
      jump_interval 160 255 = 10 := by
  refine ⟨fun l f => le_max_right _ _, fun l hl => ?_, by decide⟩
  unfold jump_interval
  rw [Nat.div_eq_of_lt (by omega : l < 16)]
  decide

/-- Witness for C7's clamped case at a concrete length. -/
theorem c7_jump_interval_values_witness : jump_interval 9 0 = 2 :=
  c7_jump_interval_values.2.1 9 (by decide)

/-- C4 counterexample: a buffer declaring key_len 0 — outside the claimed
mandatory range 4 ≤ key_len — is nonetheless accepted by `decode_key`. -/
theorem c4_small_keylen_accepted :
    decode_key [255, 0, 0, 1, 2, 3, 4, 0] =
      .ok { length := 0, jump_frequency := 1, jump_length := 131844, block := [] } ∧
      (0 : Nat) < 4 := by decide

/-- C4 (amended): `decode_key` succeeds exactly when the header byte is 0xFF,
the finalizer byte is 0x00 and the total length is 8 plus the declared
big-endian key_len; the declared range 4 ≤ key_len is not checked (and
key_len ≤ 65535 is automatic for a two-byte field). -/
theorem c4_decode_key_exact (key : List Nat) :
    (∃ k, decode_key key = .ok k) ↔
      (key.headD 0 = 0xFF ∧ key.getLastD 1 = 0 ∧
        key.length = 8 + int_from_bytes_be ((key.drop 1).take 2)) := by
  unfold decode_key
  split_ifs with h1 h2 h3
  · constructor
    · rintro ⟨k, hk⟩
      simp at hk
    · rintro ⟨-, -, hlen⟩
      omega
  · constructor
    · rintro ⟨k, hk⟩
      simp at hk
    · rintro ⟨hh, -, -⟩
      exact absurd hh h2
  · constructor
    · rintro ⟨k, hk⟩
      simp at hk
    · rintro ⟨-, hf, -⟩
      exact absurd hf h3
  · dsimp only
    split_ifs with h4
    · constructor
      · rintro ⟨k, hk⟩
        simp at hk
      · rintro ⟨-, -, hlen⟩
        exact absurd hlen h4
    · exact ⟨fun _ => ⟨by omega, by omega, by omega⟩, fun _ => ⟨_, rfl⟩⟩

/-- C5 counterexample: on the empty input stream `decrypt_file` succeeds
with empty output at a concrete valid key, reporting no error at all. -/
theorem c5_empty_input_silent_concrete :
    decrypt_file [] [255, 0, 4, 7, 0, 0, 3, 20, 30, 40, 50, 0] = .ok [] := by decide

/-- C5 (amended): for every key, `decrypt_file` on an empty input stream
silently returns empty output: the missing separator line is not detected. -/
theorem c5_empty_input_silent (key : List Nat) : decrypt_file [] key = .ok [] := rfl

/-- C6: what the code does on a negative jump-length override other than −1 —
the intended validation never fires (a duplicated jump-frequency check stands
in its place), and key assembly stops with `OverflowError` from `to_bytes`
rather than a validation error; no key is produced. -/
theorem c6_negative_jumplen_overflow (key_len : Nat) (ojl : Int) (rnd : List Nat)
    (h4 : 4 ≤ key_len) (h65 : key_len ≤ 65535) (hneg : ojl < 0) (hne : ojl ≠ -1) :
    generate_key key_len (-1) ojl rnd = .error .overflowError := by
  simp only [generate_key, int_to_bytes]
  rw [if_neg (by omega : ¬ key_len < 4), if_neg (by omega : ¬ 65535 < key_len),
    if_neg (by simp : ¬ ((-1 : Int) ≠ -1 ∧ ((-1 : Int) < 1 ∨ 255 < (-1 : Int)))),
    if_neg (by simp : ¬ ((-1 : Int) ≠ -1 ∧ (-1 : Int) < 1)),
    if_neg (by simp : ¬ ((-1 : Int) ≠ -1)), if_pos hne, if_pos hneg]

/-- Witness for C6 at concrete arguments. -/
theorem c6_negative_jumplen_overflow_witness :
    generate_key 4 (-1) (-2) [1, 2, 3, 4, 5, 6, 7, 8] = .error .overflowError :=
  c6_negative_jumplen_overflow 4 (-2) [1, 2, 3, 4, 5, 6, 7, 8]
    (by decide) (by decide) (by decide) (by decide)

/-- C10: an override jump length above 16777215 cannot be encoded into the
3-byte field, so `generate_key` fails with an overflow error and produces no
key, for every valid requested length. -/
theorem c10_jumplen_too_big_overflow (key_len : Nat) (ojl : Int) (rnd : List Nat)
    (h4 : 4 ≤ key_len) (h65 : key_len ≤ 65535) (hbig : 16777215 < ojl) :
    generate_key key_len (-1) ojl rnd = .error .overflowError := by
  have hpow : (256 : Int) ^ 3 = 16777216 := by norm_num
  simp only [generate_key, int_to_bytes]
  rw [if_neg (by omega : ¬ key_len < 4), if_neg (by omega : ¬ 65535 < key_len),
    if_neg (by simp : ¬ ((-1 : Int) ≠ -1 ∧ ((-1 : Int) < 1 ∨ 255 < (-1 : Int)))),
    if_neg (by simp : ¬ ((-1 : Int) ≠ -1 ∧ (-1 : Int) < 1)),
    if_neg (by simp : ¬ ((-1 : Int) ≠ -1)), if_pos (by omega : ojl ≠ -1),
    if_neg (by omega : ¬ ojl < 0), if_pos (by omega : (256 : Int) ^ 3 ≤ ojl)]

/-- Witness for C10 at concrete arguments. -/
theorem c10_jumplen_too_big_overflow_witness :
    generate_key 4 (-1) 16777216 [1, 2, 3, 4, 5, 6, 7, 8] = .error .overflowError :=
  c10_jumplen_too_big_overflow 4 16777216 [1, 2, 3, 4, 5, 6, 7, 8]
    (by decide) (by decide) (by decide)

/-- C9: every 8-byte buffer `FF 00 00 b3 b4 b5 b6 00` (declared key_len 0) is
accepted by `decode_key` with length 0 and empty block, and on it both
`encrypt` and `decrypt` stop with the unguarded division by zero in the
jump-distance computation, for every input data including the empty one. -/
theorem c9_zero_length_key_div_zero (b3 b4 b5 b6 : Nat) :
    decode_key [255, 0, 0, b3, b4, b5, b6, 0] =
      .ok { length := 0, jump_frequency := b3,
            jump_length := int_from_bytes_be [b4, b5, b6], block := [] } ∧
    ∀ data : List Nat,
      encrypt data [255, 0, 0, b3, b4, b5, b6, 0] = .error .zeroDivisionError ∧
      decrypt data [255, 0, 0, b3, b4, b5, b6, 0] = .error .zeroDivisionError :=
  ⟨rfl, fun _ => ⟨rfl, rfl⟩⟩

/-- C2: concrete run refuting the file-codec round trip.  The separator
selection loop vets only the plaintext chunks; here the accepted separator
65 66 67 occurs inside the encrypted chunk, so decryption maps it back to a
newline that was never there and returns different bytes (of different
length) than the original input. -/
theorem c2_separator_collision_run :
    sepAccepted [65, 66, 67] [165, 166, 167, 165, 166, 167] = true ∧
    encrypt_file [165, 166, 167, 165, 166, 167] [65, 66, 67]
        [255, 0, 4, 7, 0, 0, 3, 20, 30, 40, 50, 0] =
      .ok [65, 66, 67, 10, 65, 66, 67, 65, 66, 67, 10] ∧
    decrypt_file [65, 66, 67, 10, 65, 66, 67, 65, 66, 67, 10]
        [255, 0, 4, 7, 0, 0, 3, 20, 30, 40, 50, 0] = .ok [110, 110] ∧
    ([110, 110] : List Nat) ≠ [165, 166, 167, 165, 166, 167] := by decide

end PJVC

